import Mathlib

/-!
Verification of the elementwise matrix operators of
`ml-prims/src/matrix/math.h` (namespace `MLCommon::Matrix`).

Buffers are modelled as `List ℚ`; the `len` argument of a C++ call is the
buffer's length (the caller contract of the header), so elementwise loops
over `[0, len)` become maps over the whole list.  Exact rational arithmetic
stands in for the floating-point element type `math_t`.
-/

namespace MLCommon
namespace Matrix

/-- The literal `1e-15`, the default `thres` of the header. -/
def qthres15 : ℚ := 1 / 1000000000000000

/-- The literal `1e-10` used by the broadcast masking/divide guards. -/
def qthres10 : ℚ := 1 / 10000000000

/-- In-place `reciprocal(math_t* inout, math_t scalar, int len, bool setzero, math_t thres)`
(math.h lines 175-194): for each element, when `setzero` holds, write `0`
if the element is `<= thres` and `scalar / x` otherwise; when `setzero`
is false always write `scalar / x`. -/
def reciprocal (inout : List ℚ) (scalar : ℚ) (setzero : Bool) (thres : ℚ) : List ℚ :=
  inout.map (fun x =>
    if setzero then
      if x ≤ thres then 0 else scalar / x
    else scalar / x)

/-- Two-buffer `reciprocal(math_t* in, math_t* out, math_t scalar, int len)`
(math.h lines 240-251): unconditionally `out[i] = scalar / in[i]`. -/
def reciprocalSrcDst (a : List ℚ) (scalar : ℚ) : List ℚ :=
  a.map (fun x => scalar / x)

/-- Scalar-omitted in-place `reciprocal(math_t* inout, int len, bool setzero, math_t thres)`
(math.h lines 259-263): sets `scalar = 1` and calls
`reciprocal(inout, scalar, len)` — the 3-argument call leaves the callee's
defaults `setzero = false`, `thres = 1e-15` in force, so the caller's
`setzero` and `thres` arguments are dropped. -/
def reciprocalDefaultScalar (inout : List ℚ) (setzero : Bool) (thres : ℚ) : List ℚ :=
  reciprocal inout 1 false qthres15

/-- Elementwise `setSmallValuesZero(math_t* inout, int len, math_t thres)`
(math.h lines 203-217): `inout[i] <= thres` becomes `0`, otherwise the
element is rewritten to itself. -/
def setSmallValuesZero (inout : List ℚ) (thres : ℚ) : List ℚ :=
  inout.map (fun x => if x ≤ thres then 0 else x)

/-- Modelled from the spec: the broadcast-apply engine `matrixVectorOp` of
`linalg/matrix_vector_op.h`, which is not under `src/`.  Per §4.3/§6 of the
spec it applies, in place, a binary combining function between every matrix
element and the vector entry selected by the layout flag (the vector is
aligned per-row for a row-major broadcast and per-column for a column-major
one); per the §8 row-major scenario the vector index of linear element `i`
is the slow-varying coordinate `i / n_col` (row-major) resp. `i / n_row`
(column-major).  Argument order follows the call sites in math.h:
`matrixVectorOp(data, vec, n_col, n_row, rowMajor, op)`. -/
def matrixVectorOp (data vec : List ℚ) (n_col n_row : ℕ) (rowMajor : Bool)
    (op : ℚ → ℚ → ℚ) : List ℚ :=
  (List.range data.length).map (fun i =>
    op (data.getD i 0) (vec.getD (if rowMajor then i / n_col else i / n_row) 0))

/-- Matrix-vector `setSmallValuesZero(Type* inout, const Type* vec, int n_row, int n_col, Type thres)`
(math.h lines 219-230): dispatches `matrixVectorOp(inout, vec, n_col, n_row, false, ...)`
with the combining function `if b < 1e-10 then 0 else a`; the `thres`
parameter does not occur in the body. -/
def setSmallValuesZeroMV (inout vec : List ℚ) (n_row n_col : ℕ) (thres : ℚ) : List ℚ :=
  matrixVectorOp inout vec n_col n_row false
    (fun a b => if b < qthres10 then 0 else a)

/-- `matrixVectorBinaryDivSkipZero(Type* data, const Type* vec, int n_row, int n_col, bool rowMajor, bool return_zero)`
(math.h lines 376-395): with `return_zero` the combining function is
`if b < 1e-10 then 0 else a / b`, otherwise `if b < 1e-10 then a else a / b`. -/
def matrixVectorBinaryDivSkipZero (data vec : List ℚ) (n_row n_col : ℕ)
    (rowMajor return_zero : Bool) : List ℚ :=
  if return_zero then
    matrixVectorOp data vec n_col n_row rowMajor
      (fun a b => if b < qthres10 then 0 else a / b)
  else
    matrixVectorOp data vec n_col n_row rowMajor
      (fun a b => if b < qthres10 then a else a / b)

/-- The summation loop of `ratio` (math.h lines 298-301):
`for (i = 0; i < s; i++) total += d_src[i]`. -/
def sumTo (src : List ℚ) (len : ℕ) : ℚ :=
  (List.range len).foldl (fun t i => t + src.getD i 0) 0

/-- `ratio(math_t* src, math_t* dest, int len)` (math.h lines 288-306): for
every index, recompute `total` as the sum of `src[0..len)` (src and dest
are distinct buffers, so src is never modified) and write
`dest[idx] = src[idx] / total` unless `total` is exactly `0`, in which case
the write is skipped. -/
def ratioOp (src dest : List ℚ) (len : ℕ) : List ℚ :=
  (List.range len).foldl (fun d idx =>
    let total := sumTo src len
    if total ≠ 0 then d.set idx (src.getD idx 0 / total) else d) dest

/-- `val = inout[i]; if (val < 0.0) val = -val;` — the absolute value used
by `signFlip`'s scan. -/
def absQ (x : ℚ) : ℚ := if x < 0 then -x else x

/-- The scan loop of `signFlip` (math.h lines 326-337): walk the elements of
the column segment, carrying the running `(max, max_index)` accumulator
(initially `(0.0, 0)` with the absolute index `0`); the counter `i` is the
absolute buffer index of the head element; only a strictly greater absolute
value (`val > max`) updates the accumulator. -/
def scanFrom : List ℚ → ℕ → ℚ × ℕ → ℚ × ℕ
  | [], _, acc => acc
  | x :: xs, i, acc =>
      scanFrom xs (i + 1) (if absQ x > acc.1 then (absQ x, i) else acc)

/-- The per-column body of `signFlip` (math.h lines 322-344): scan the
segment `[d_i, d_i + m)` of the buffer with initial accumulator `(0.0, 0)`;
if `inout[max_index] < 0.0` negate every element of the segment, otherwise
leave the buffer untouched. -/
def flipCol (b : List ℚ) (d_i m : ℕ) : List ℚ :=
  let mi := (scanFrom ((b.drop d_i).take m) d_i (0, 0)).2
  if b.getD mi 0 < 0 then
    b.take d_i ++ ((b.drop d_i).take m).map (fun x => -x) ++ b.drop (d_i + m)
  else b

/-- `signFlip(math_t* inout, int n_rows, int n_cols)` (math.h lines 316-346):
for each column index `idx` in `[0, n_cols)` run the per-column
scan-then-negate body at `d_i = idx * n_rows`. -/
def signFlip (inout : List ℚ) (n_rows n_cols : ℕ) : List ℚ :=
  (List.range n_cols).foldl (fun b idx => flipCol b (idx * n_rows) n_rows) inout

/-- The `j`-th column segment of a column-major buffer with `m` rows. -/
def colSeg (a : List ℚ) (m j : ℕ) : List ℚ := (a.drop (j * m)).take m

/-- Specification of the per-column behaviour, in the claim's words: find
the element of maximum absolute value within the column, ties resolved to
the earliest element in scan order (strict `>` against the running max,
started at `(0, 0)`); if that element's original signed value is negative,
negate every element of the column, otherwise leave the column unchanged. -/
def flipColSpec (c : List ℚ) : List ℚ :=
  if c.getD (scanFrom c 0 (0, 0)).2 0 < 0 then c.map (fun x => -x) else c

/-- The column-wise specification of `signFlip`: every column is rewritten
independently by `flipColSpec`. -/
def signFlipSpec (a : List ℚ) (m n : ℕ) : List ℚ :=
  ((List.range n).map (fun j => flipColSpec (colSeg a m j))).flatten

/-- The element the scan selects in a column: the earliest element of
maximal absolute value. -/
def maxAbsElem (c : List ℚ) : ℚ := c.getD (scanFrom c 0 (0, 0)).2 0

/-! ## Helper lemmas -/

theorem getD_map_lt (f : ℚ → ℚ) (l : List ℚ) (i : ℕ) (h : i < l.length) :
    (l.map f).getD i 0 = f (l.getD i 0) := by
  induction l generalizing i with
  | nil => simp at h
  | cons x xs ih =>
    cases i with
    | zero => simp [List.getD]
    | succ n =>
      simp only [List.map_cons, List.getD_cons_succ]
      exact ih n (by simpa using h)

theorem getD_map_range (g : ℕ → ℚ) (n i : ℕ) (h : i < n) :
    ((List.range n).map g).getD i 0 = g i := by
  rw [List.getD_eq_getD_get?, List.get?_map, List.get?_range h]
  rfl

theorem getD_set (l : List ℚ) (i j : ℕ) (v : ℚ) :
    (l.set i v).getD j 0 = if i = j ∧ i < l.length then v else l.getD j 0 := by
  induction l generalizing i j with
  | nil => simp
  | cons x xs ih =>
    cases i with
    | zero =>
      cases j with
      | zero => simp
      | succ m => simp
    | succ n =>
      cases j with
      | zero => simp
      | succ m =>
        simp only [List.set_cons_succ, List.getD_cons_succ, List.length_cons]
        rw [ih n m]
        by_cases hc : n = m ∧ n < xs.length
        · rw [if_pos hc, if_pos (by omega)]
        · rw [if_neg hc, if_neg (by omega)]

theorem foldl_set_getD (v : ℕ → ℚ) :
    ∀ (l : List ℕ) (d : List ℚ) (j : ℕ),
      (l.foldl (fun d i => d.set i (v i)) d).getD j 0
        = if j ∈ l ∧ j < d.length then v j else d.getD j 0 := by
  intro l
  induction l with
  | nil => intro d j; simp
  | cons i l ih =>
    intro d j
    rw [List.foldl_cons, ih, List.length_set]
    by_cases h1 : j ∈ l ∧ j < d.length
    · rw [if_pos h1, if_pos ⟨List.mem_cons_of_mem _ h1.1, h1.2⟩]
    · rw [if_neg h1, getD_set]
      by_cases h2 : i = j ∧ i < d.length
      · rw [if_pos h2, if_pos ⟨by rw [← h2.1]; exact List.mem_cons_self i l,
              h2.1 ▸ h2.2⟩, h2.1]
      · rw [if_neg h2, if_neg (by
          rintro ⟨hm, hlen⟩
          rcases List.mem_cons.mp hm with h | h
          · exact h2 ⟨h.symm, h ▸ hlen⟩
          · exact h1 ⟨h, hlen⟩)]

theorem foldl_id (l : List ℕ) (d : List ℚ) : l.foldl (fun d _ => d) d = d := by
  induction l generalizing d with
  | nil => rfl
  | cons i l ih => simpa using ih d

/-- `ratioOp` either rewrites every index with the shared total or, when
the total is zero, skips every write. -/
theorem ratioOp_eq (src dest : List ℚ) (len : ℕ) :
    ratioOp src dest len
      = if sumTo src len ≠ 0
        then (List.range len).foldl
          (fun d idx => d.set idx (src.getD idx 0 / sumTo src len)) dest
        else dest := by
  unfold ratioOp
  by_cases h : sumTo src len ≠ 0
  · rw [if_pos h]
    congr 1
    funext d idx
    simp [h]
  · rw [if_neg h]
    have hfn : (fun (d : List ℚ) idx =>
        let total := sumTo src len
        if total ≠ 0 then d.set idx (src.getD idx 0 / total) else d)
        = fun d _ => d := by
      funext d idx
      simp [not_not.mp h]
    rw [hfn]
    exact foldl_id _ _

/-! ## Claims about the elementwise scalar operators -/

/-- C1: the scalar-omitted in-place `reciprocal` overload is NOT equivalent
to the scalar-taking form at `scalar = 1` for all `setzero`/`thres`: the
delegation call `reciprocal(inout, scalar, len)` drops the caller's
`setzero` and `thres`, so the zero-guard is silently disabled.  At
`inout = [1/4]`, `setzero = true`, `thres = 1/2` the scalar-taking form
guards (`1/4 <= 1/2`) and writes `0`, while the scalar-omitted overload
divides and writes `4`. -/
theorem reciprocalDefaultScalar_drops_guard :
    reciprocalDefaultScalar [(1 : ℚ)/4] true ((1 : ℚ)/2) = [4]
    ∧ reciprocal [(1 : ℚ)/4] 1 true ((1 : ℚ)/2) = [0]
    ∧ reciprocalDefaultScalar [(1 : ℚ)/4] true ((1 : ℚ)/2)
        ≠ reciprocal [(1 : ℚ)/4] 1 true ((1 : ℚ)/2) := by
  refine ⟨?_, ?_, ?_⟩ <;>
    norm_num [reciprocalDefaultScalar, reciprocal, qthres15]

/-- C5: the in-place `reciprocal` with `setZero = true` maps `x <= thres`
to `0` and any other `x` to `scalar / x`; with `setZero = false` it maps
every `x` to `scalar / x`; and the two-buffer overload applies no guard,
always writing `scalar / x`. -/
theorem reciprocal_guard_behaviour :
    ∀ (a : List ℚ) (scalar thres : ℚ) (i : ℕ), i < a.length →
      (reciprocal a scalar true thres).getD i 0
        = (if a.getD i 0 ≤ thres then 0 else scalar / a.getD i 0)
      ∧ (reciprocal a scalar false thres).getD i 0 = scalar / a.getD i 0
      ∧ (reciprocalSrcDst a scalar).getD i 0 = scalar / a.getD i 0 := by
  intro a scalar thres i h
  refine ⟨?_, ?_, ?_⟩
  · show (a.map fun x => if x ≤ thres then 0 else scalar / x).getD i 0 = _
    rw [getD_map_lt _ _ _ h]
  · show (a.map fun x => scalar / x).getD i 0 = _
    rw [getD_map_lt _ _ _ h]
  · show (a.map fun x => scalar / x).getD i 0 = _
    rw [getD_map_lt _ _ _ h]

/-- Witness for C5 at `a = [0, 3]`, `scalar = 6`, `thres = 1/1000`, `i = 1`. -/
theorem reciprocal_guard_behaviour_witness :
    (reciprocal [0, (3 : ℚ)] 6 true ((1 : ℚ)/1000)).getD 1 0
      = (if ([0, (3 : ℚ)].getD 1 0) ≤ (1 : ℚ)/1000 then 0
         else 6 / [0, (3 : ℚ)].getD 1 0)
    ∧ (reciprocal [0, (3 : ℚ)] 6 false ((1 : ℚ)/1000)).getD 1 0
        = 6 / [0, (3 : ℚ)].getD 1 0
    ∧ (reciprocalSrcDst [0, (3 : ℚ)] 6).getD 1 0 = 6 / [0, (3 : ℚ)].getD 1 0 :=
  reciprocal_guard_behaviour [0, (3 : ℚ)] 6 ((1 : ℚ)/1000) 1 (by norm_num)

/-- C6 counterexample: `setSmallValuesZero` compares the signed value, not
the magnitude, against the threshold, so the large-negative element `-100`
is zeroed out rather than left unchanged. -/
theorem setSmallValuesZero_zeroes_neg :
    setSmallValuesZero [(-100 : ℚ)] qthres15 = [0]
    ∧ setSmallValuesZero [(-100 : ℚ)] qthres15 ≠ [(-100 : ℚ)] := by
  constructor <;> norm_num [setSmallValuesZero, qthres15]

/-- C6 (amended): `setSmallValuesZero` zeroes exactly the elements whose
signed value is `<= thres` and leaves elements `> thres` unchanged; in
particular `x = -100` with `thres = 1e-15` is set to `0`. -/
theorem setSmallValuesZero_signed_threshold :
    (∀ (a : List ℚ) (thres : ℚ) (i : ℕ), i < a.length →
      (setSmallValuesZero a thres).getD i 0
        = if a.getD i 0 ≤ thres then 0 else a.getD i 0)
    ∧ setSmallValuesZero [(-100 : ℚ)] qthres15 = [0] := by
  constructor
  · intro a thres i h
    show (a.map fun x => if x ≤ thres then 0 else x).getD i 0 = _
    rw [getD_map_lt _ _ _ h]
  · norm_num [setSmallValuesZero, qthres15]

/-- Witness for C6 (amended) at `a = [-100]`, `thres = 1e-15`, `i = 0`. -/
theorem setSmallValuesZero_signed_threshold_witness :
    (setSmallValuesZero [(-100 : ℚ)] qthres15).getD 0 0
      = if ([(-100 : ℚ)].getD 0 0) ≤ qthres15 then 0 else [(-100 : ℚ)].getD 0 0 :=
  setSmallValuesZero_signed_threshold.1 [(-100 : ℚ)] qthres15 0 (by norm_num)

/-- C7: `setSmallValuesZero` is idempotent for `thres >= 0`: a second
application with the same threshold changes nothing. -/
theorem setSmallValuesZero_idempotent :
    ∀ (a : List ℚ) (thres : ℚ), 0 ≤ thres →
      setSmallValuesZero (setSmallValuesZero a thres) thres
        = setSmallValuesZero a thres := by
  intro a thres h
  induction a with
  | nil => rfl
  | cons x xs ih =>
    simp only [setSmallValuesZero, List.map_cons] at ih ⊢
    rw [ih]
    by_cases hx : x ≤ thres
    · simp [hx, h]
    · simp [hx]

/-- Witness for C7 at `a = [1/2, -3, 7]`, `thres = 1`. -/
theorem setSmallValuesZero_idempotent_witness :
    setSmallValuesZero (setSmallValuesZero [(1 : ℚ)/2, -3, 7] 1) 1
      = setSmallValuesZero [(1 : ℚ)/2, -3, 7] 1 :=
  setSmallValuesZero_idempotent [(1 : ℚ)/2, -3, 7] 1 (by norm_num)

/-! ## Claims about the broadcast operators -/

/-- C8: `matrixVectorBinaryDivSkipZero` pairs each matrix element `a` with
the broadcast vector entry `b`; when `b < 1e-10` it outputs `0` if
`returnZero` and `a` unchanged otherwise, else it outputs `a / b`; in
particular `b = 0` leaves `a` unchanged (`returnZero = false`) or zeroes
it (`returnZero = true`). -/
theorem matrixVectorBinaryDivSkipZero_rule :
    ∀ (data vec : List ℚ) (n_row n_col : ℕ) (rowMajor : Bool) (i : ℕ),
      i < data.length →
      ∀ b : ℚ, b = vec.getD (if rowMajor then i / n_col else i / n_row) 0 →
      ((matrixVectorBinaryDivSkipZero data vec n_row n_col rowMajor true).getD i 0
         = if b < qthres10 then 0 else data.getD i 0 / b)
      ∧ ((matrixVectorBinaryDivSkipZero data vec n_row n_col rowMajor false).getD i 0
         = if b < qthres10 then data.getD i 0 else data.getD i 0 / b)
      ∧ (b = 0 →
          (matrixVectorBinaryDivSkipZero data vec n_row n_col rowMajor false).getD i 0
            = data.getD i 0
          ∧ (matrixVectorBinaryDivSkipZero data vec n_row n_col rowMajor true).getD i 0
            = 0) := by
  intro data vec n_row n_col rowMajor i h b hb
  have h10 : (0 : ℚ) < qthres10 := by norm_num [qthres10]
  subst hb
  refine ⟨?_, ?_, ?_⟩
  · show ((List.range data.length).map (fun i =>
        if vec.getD (if rowMajor then i / n_col else i / n_row) 0 < qthres10 then 0
        else data.getD i 0
          / vec.getD (if rowMajor then i / n_col else i / n_row) 0)).getD i 0 = _
    rw [getD_map_range _ _ _ h]
  · show ((List.range data.length).map (fun i =>
        if vec.getD (if rowMajor then i / n_col else i / n_row) 0 < qthres10
        then data.getD i 0
        else data.getD i 0
          / vec.getD (if rowMajor then i / n_col else i / n_row) 0)).getD i 0 = _
    rw [getD_map_range _ _ _ h]
  · intro hb0
    constructor
    · show ((List.range data.length).map (fun i =>
          if vec.getD (if rowMajor then i / n_col else i / n_row) 0 < qthres10
          then data.getD i 0
          else data.getD i 0
            / vec.getD (if rowMajor then i / n_col else i / n_row) 0)).getD i 0 = _
      rw [getD_map_range _ _ _ h]
      show (if vec.getD (if rowMajor then i / n_col else i / n_row) 0 < qthres10
            then data.getD i 0
            else data.getD i 0
              / vec.getD (if rowMajor then i / n_col else i / n_row) 0) = _
      rw [hb0, if_pos h10]
    · show ((List.range data.length).map (fun i =>
          if vec.getD (if rowMajor then i / n_col else i / n_row) 0 < qthres10 then 0
          else data.getD i 0
            / vec.getD (if rowMajor then i / n_col else i / n_row) 0)).getD i 0 = _
      rw [getD_map_range _ _ _ h]
      show (if vec.getD (if rowMajor then i / n_col else i / n_row) 0 < qthres10 then 0
            else data.getD i 0
              / vec.getD (if rowMajor then i / n_col else i / n_row) 0) = _
      rw [hb0, if_pos h10]

/-- Witness for C8 at `data = [5, 7]`, `vec = [0]`, 1×2 row-major, `i = 0`. -/
theorem matrixVectorBinaryDivSkipZero_rule_witness :
    ((matrixVectorBinaryDivSkipZero [5, (7 : ℚ)] [0] 1 2 true true).getD 0 0
       = if (0 : ℚ) < qthres10 then 0 else [5, (7 : ℚ)].getD 0 0 / 0)
    ∧ ((matrixVectorBinaryDivSkipZero [5, (7 : ℚ)] [0] 1 2 true false).getD 0 0
       = if (0 : ℚ) < qthres10 then [5, (7 : ℚ)].getD 0 0
         else [5, (7 : ℚ)].getD 0 0 / 0)
    ∧ ((0 : ℚ) = 0 →
        (matrixVectorBinaryDivSkipZero [5, (7 : ℚ)] [0] 1 2 true false).getD 0 0
          = [5, (7 : ℚ)].getD 0 0
        ∧ (matrixVectorBinaryDivSkipZero [5, (7 : ℚ)] [0] 1 2 true true).getD 0 0
          = 0) :=
  matrixVectorBinaryDivSkipZero_rule [5, (7 : ℚ)] [0] 1 2 true 0 (by norm_num) 0 (by rfl)

/-- C9: the matrix-vector form of `setSmallValuesZero` ignores its `thres`
argument entirely — any two thresholds give identical results — because the
body always dispatches `matrixVectorOp` with the column-major flag `false`
and the fixed masking rule `if b < 1e-10 then 0 else a`. -/
theorem setSmallValuesZeroMV_thres_independent :
    ∀ (inout vec : List ℚ) (n_row n_col : ℕ) (t1 t2 : ℚ),
      setSmallValuesZeroMV inout vec n_row n_col t1
        = setSmallValuesZeroMV inout vec n_row n_col t2
      ∧ setSmallValuesZeroMV inout vec n_row n_col t1
          = matrixVectorOp inout vec n_col n_row false
              (fun a b => if b < qthres10 then 0 else a) :=
  fun _ _ _ _ _ _ => ⟨rfl, rfl⟩

/-! ## Lemmas about `absQ` and the `signFlip` scan -/

theorem absQ_nonneg (x : ℚ) : 0 ≤ absQ x := by
  unfold absQ; split <;> linarith

theorem absQ_eq_zero {x : ℚ} (h : absQ x = 0) : x = 0 := by
  unfold absQ at h; split at h <;> linarith

theorem absQ_neg (x : ℚ) : absQ (-x) = absQ x := by
  unfold absQ
  by_cases h : x < 0
  · rw [if_neg (by linarith), if_pos h]
  · by_cases h0 : x = 0
    · subst h0; norm_num
    · have hx : 0 < x := lt_of_le_of_ne (not_lt.mp h) (Ne.symm h0)
      rw [if_pos (by linarith), if_neg h, neg_neg]

theorem scanFrom_fst_mono : ∀ (c : List ℚ) (j : ℕ) (acc : ℚ × ℕ),
    acc.1 ≤ (scanFrom c j acc).1 := by
  intro c
  induction c with
  | nil => intro j acc; exact le_refl _
  | cons x xs ih =>
    intro j acc
    rw [scanFrom]
    by_cases h : absQ x > acc.1
    · rw [if_pos h]
      exact le_trans (le_of_lt h) (ih _ _)
    · rw [if_neg h]
      exact ih _ _

theorem scanFrom_ge : ∀ (c : List ℚ) (j : ℕ) (acc : ℚ × ℕ) (x : ℚ),
    x ∈ c → absQ x ≤ (scanFrom c j acc).1 := by
  intro c
  induction c with
  | nil => intro j acc x hx; simp at hx
  | cons y ys ih =>
    intro j acc x hx
    rw [scanFrom]
    rcases List.mem_cons.mp hx with h | h
    · subst h
      by_cases hy : absQ x > acc.1
      · rw [if_pos hy]
        exact le_trans (le_refl _) (scanFrom_fst_mono ys (j + 1) (absQ x, j))
      · rw [if_neg hy]
        exact le_trans (not_lt.mp hy) (scanFrom_fst_mono ys (j + 1) acc)
    · by_cases hy : absQ y > acc.1
      · rw [if_pos hy]; exact ih _ _ x h
      · rw [if_neg hy]; exact ih _ _ x h

theorem scanFrom_zero_all (c : List ℚ) (j : ℕ) (acc : ℚ × ℕ)
    (h : (scanFrom c j acc).1 = 0) : ∀ x ∈ c, x = 0 := by
  intro x hx
  exact absQ_eq_zero (le_antisymm (h ▸ scanFrom_ge c j acc x hx) (absQ_nonneg x))

theorem scanFrom_const_init : ∀ (c : List ℚ) (j k : ℕ),
    (∀ x ∈ c, x = 0) → scanFrom c j (0, k) = (0, k) := by
  intro c
  induction c with
  | nil => intro j k _; rfl
  | cons x xs ih =>
    intro j k hz
    rw [scanFrom]
    rw [if_neg (by
      have hx : x = 0 := hz x (by simp)
      simp [hx, absQ])]
    exact ih (j + 1) k (fun y hy => hz y (by simp [hy]))

theorem scanFrom_shift : ∀ (c : List ℚ) (j d : ℕ) (v : ℚ) (k : ℕ),
    scanFrom c (d + j) (v, d + k)
      = ((scanFrom c j (v, k)).1, d + (scanFrom c j (v, k)).2) := by
  intro c
  induction c with
  | nil => intro j d v k; rfl
  | cons x xs ih =>
    intro j d v k
    rw [scanFrom, scanFrom]
    by_cases h : absQ x > v
    · rw [if_pos (show absQ x > (v, d + k).1 from h),
        if_pos (show absQ x > (v, k).1 from h)]
      exact ih (j + 1) d (absQ x) j
    · rw [if_neg (show ¬ absQ x > (v, d + k).1 from h),
        if_neg (show ¬ absQ x > (v, k).1 from h)]
      exact ih (j + 1) d v k

theorem scanFrom_localize : ∀ (c : List ℚ) (d : ℕ),
    scanFrom c d (0, 0)
      = ((scanFrom c 0 (0, 0)).1,
         if (scanFrom c 0 (0, 0)).1 = 0 then 0 else d + (scanFrom c 0 (0, 0)).2) := by
  intro c
  induction c with
  | nil => intro d; simp [scanFrom]
  | cons x xs ih =>
    intro d
    rw [scanFrom, scanFrom]
    by_cases h : absQ x > 0
    · rw [if_pos (show absQ x > ((0 : ℚ), (0 : ℕ)).1 from h),
        if_pos (show absQ x > ((0 : ℚ), (0 : ℕ)).1 from h)]
      have hs := scanFrom_shift xs 1 d (absQ x) 0
      rw [show d + 1 = d + 1 from rfl] at hs
      rw [show ((absQ x, d) : ℚ × ℕ) = (absQ x, d + 0) from by norm_num] at *
      rw [hs]
      have hpos : 0 < (scanFrom xs 1 (absQ x, 0)).1 :=
        lt_of_lt_of_le h (scanFrom_fst_mono xs 1 (absQ x, 0))
      rw [if_neg (ne_of_gt hpos)]
    · rw [if_neg (show ¬ absQ x > ((0 : ℚ), (0 : ℕ)).1 from h),
        if_neg (show ¬ absQ x > ((0 : ℚ), (0 : ℕ)).1 from h)]
      rw [ih (d + 1), ih 1]
      rcases hsc : scanFrom xs 0 (0, 0) with ⟨v, k⟩
      by_cases h0 : v = 0
      · subst h0
        simp
      · have harith : d + 1 + k = d + (1 + k) := by omega
        simp [h0, harith]

theorem scanFrom_idx : ∀ (c : List ℚ) (j : ℕ) (v : ℚ) (k : ℕ),
    (scanFrom c j (v, k)).2 = k
    ∨ (j ≤ (scanFrom c j (v, k)).2 ∧ (scanFrom c j (v, k)).2 < j + c.length) := by
  intro c
  induction c with
  | nil => intro j v k; left; rfl
  | cons x xs ih =>
    intro j v k
    rw [scanFrom]
    by_cases h : absQ x > v
    · rw [if_pos (show absQ x > (v, k).1 from h)]
      rcases ih (j + 1) (absQ x) j with h1 | h1
      · right
        rw [h1]
        simp only [List.length_cons]
        omega
      · right
        simp only [List.length_cons]
        omega
    · rw [if_neg (show ¬ absQ x > (v, k).1 from h)]
      rcases ih (j + 1) v k with h1 | h1
      · left; exact h1
      · right
        simp only [List.length_cons]
        omega

theorem scanFrom_idx_lt {c : List ℚ} (h : (scanFrom c 0 (0, 0)).1 ≠ 0) :
    (scanFrom c 0 (0, 0)).2 < c.length := by
  have hne : c ≠ [] := by
    rintro rfl
    exact h rfl
  have hlen : 0 < c.length := List.length_pos.mpr hne
  rcases scanFrom_idx c 0 0 0 with h1 | h1
  · rw [h1]; exact hlen
  · simpa using h1.2

theorem scanFrom_val_aux (c₀ : List ℚ) : ∀ (xs : List ℚ) (j : ℕ) (acc : ℚ × ℕ),
    (∀ k, k < xs.length → xs.getD k 0 = c₀.getD (j + k) 0) →
    (acc.1 = absQ (c₀.getD acc.2 0) ∨ acc = (0, 0)) →
    ((scanFrom xs j acc).1 = absQ (c₀.getD (scanFrom xs j acc).2 0)
      ∨ scanFrom xs j acc = (0, 0)) := by
  intro xs
  induction xs with
  | nil => intro j acc _ hinv; exact hinv
  | cons x xs ih =>
    intro j acc hcoh hinv
    rw [scanFrom]
    have hcoh' : ∀ k, k < xs.length → xs.getD k 0 = c₀.getD ((j + 1) + k) 0 := by
      intro k hk
      have := hcoh (k + 1) (by simp; omega)
      simpa [Nat.add_assoc, Nat.add_comm 1 k] using this
    by_cases h : absQ x > acc.1
    · rw [if_pos h]
      apply ih (j + 1) _ hcoh'
      left
      have hx : x = c₀.getD j 0 := by simpa using hcoh 0 (by simp)
      simpa using congrArg absQ hx
    · rw [if_neg h]
      exact ih (j + 1) acc hcoh' hinv

theorem scanFrom_val (c : List ℚ) :
    (scanFrom c 0 (0, 0)).1 = absQ (c.getD (scanFrom c 0 (0, 0)).2 0) := by
  rcases scanFrom_val_aux c c 0 (0, 0) (fun k _ => by simp) (Or.inr rfl) with h | h
  · exact h
  · rw [h]
    have hz : ∀ x ∈ c, x = 0 := scanFrom_zero_all c 0 (0, 0) (by rw [h])
    cases c with
    | nil => simp [absQ]
    | cons y ys =>
      have hy : y = 0 := hz y (by simp)
      simp [hy, absQ]

theorem scanFrom_map_neg : ∀ (c : List ℚ) (j : ℕ) (acc : ℚ × ℕ),
    scanFrom (c.map (fun x => -x)) j acc = scanFrom c j acc := by
  intro c
  induction c with
  | nil => intro j acc; rfl
  | cons x xs ih =>
    intro j acc
    rw [List.map_cons, scanFrom, scanFrom, absQ_neg]
    exact ih (j + 1) _

/-! ## List indexing helpers for the column decomposition -/

theorem getD_append_lt : ∀ (l l' : List ℚ) (i : ℕ), i < l.length →
    (l ++ l').getD i 0 = l.getD i 0 := by
  intro l
  induction l with
  | nil => intro l' i h; simp at h
  | cons x xs ih =>
    intro l' i h
    cases i with
    | zero => rfl
    | succ n =>
      simp only [List.cons_append, List.getD_cons_succ]
      exact ih l' n (by simpa using h)

theorem getD_append_len : ∀ (l l' : List ℚ) (i : ℕ),
    (l ++ l').getD (l.length + i) 0 = l'.getD i 0 := by
  intro l
  induction l with
  | nil => intro l' i; simp
  | cons x xs ih =>
    intro l' i
    simp only [List.cons_append, List.length_cons]
    rw [Nat.succ_add, List.getD_cons_succ]
    exact ih l' i

theorem getD_map_negQ : ∀ (c : List ℚ) (i : ℕ),
    (c.map (fun x => -x)).getD i 0 = -(c.getD i 0) := by
  intro c
  induction c with
  | nil => intro i; simp
  | cons x xs ih =>
    intro i
    cases i with
    | zero => rfl
    | succ n =>
      simp only [List.map_cons, List.getD_cons_succ]
      exact ih n

theorem map_neg_of_zero : ∀ {c : List ℚ}, (∀ x ∈ c, x = 0) →
    c.map (fun x => -x) = c := by
  intro c
  induction c with
  | nil => intro _; rfl
  | cons x xs ih =>
    intro hz
    have hx : x = 0 := hz x (by simp)
    simp only [List.map_cons]
    rw [ih (fun y hy => hz y (by simp [hy])), hx]
    norm_num

theorem getD_zero_of_all_zero {c : List ℚ} (hz : ∀ x ∈ c, x = 0) (i : ℕ) :
    c.getD i 0 = 0 := by
  induction c generalizing i with
  | nil => simp
  | cons x xs ih =>
    cases i with
    | zero => exact hz x (by simp)
    | succ n =>
      rw [List.getD_cons_succ]
      exact ih (fun y hy => hz y (by simp [hy])) n

/-- C3: `ratio` divides every `src` element by the single total
`sum(src[0..len))` taken over the original unmodified src values and writes
the quotient into `dest`; when the total is exactly `0` every write is
skipped and `dest` keeps its prior contents; indices past `len` are never
written. -/
theorem ratio_total_spec :
    ∀ (src dest : List ℚ) (len : ℕ), 0 < len → len ≤ dest.length →
      (sumTo src len = 0 → ratioOp src dest len = dest)
      ∧ (sumTo src len ≠ 0 → ∀ i, i < len →
          (ratioOp src dest len).getD i 0 = src.getD i 0 / sumTo src len)
      ∧ (∀ i, len ≤ i → (ratioOp src dest len).getD i 0 = dest.getD i 0) := by
  intro src dest len _hlen hdlen
  refine ⟨?_, ?_, ?_⟩
  · intro h0
    rw [ratioOp_eq, if_neg (by simpa using h0)]
  · intro hne i hi
    rw [ratioOp_eq, if_pos hne,
      foldl_set_getD (fun idx => src.getD idx 0 / sumTo src len),
      if_pos ⟨List.mem_range.mpr hi, lt_of_lt_of_le hi hdlen⟩]
  · intro i hile
    by_cases hne : sumTo src len ≠ 0
    · rw [ratioOp_eq, if_pos hne,
        foldl_set_getD (fun idx => src.getD idx 0 / sumTo src len),
        if_neg (by
          rintro ⟨hm, _⟩
          exact absurd (List.mem_range.mp hm) (by omega))]
    · rw [ratioOp_eq, if_neg hne]

/-- Witness for C3 at `src = [1, 3]`, `dest = [0, 0]`, `len = 2`, `i = 0`. -/
theorem ratio_total_spec_witness :
    (ratioOp [1, (3 : ℚ)] [0, 0] 2).getD 0 0
      = [1, (3 : ℚ)].getD 0 0 / sumTo [1, (3 : ℚ)] 2 :=
  (ratio_total_spec [1, (3 : ℚ)] [0, 0] 2 (by norm_num) (by norm_num)).2.1
    (by norm_num [sumTo, List.range_succ]) 0 (by norm_num)

/-! ## Column decomposition of `signFlip` -/

theorem flipColSpec_length (c : List ℚ) : (flipColSpec c).length = c.length := by
  unfold flipColSpec
  split <;> simp

/-- The per-column body acting on a buffer split as `pre ++ (c ++ suf)` with
the column `c` starting at `pre.length` rewrites exactly the column, by the
per-column specification. -/
theorem flipCol_append (pre c suf : List ℚ) (m : ℕ) (hc : c.length = m) :
    flipCol (pre ++ (c ++ suf)) pre.length m = pre ++ (flipColSpec c ++ suf) := by
  have hseg : ((pre ++ (c ++ suf)).drop pre.length).take m = c := by
    rw [List.drop_left, ← hc, List.take_left]
  have htake : (pre ++ (c ++ suf)).take pre.length = pre := List.take_left _ _
  have hdrop : (pre ++ (c ++ suf)).drop (pre.length + m) = suf := by
    rw [← List.drop_drop, List.drop_left, ← hc, List.drop_left]
  simp only [flipCol, hseg]
  rcases hp : scanFrom c 0 (0, 0) with ⟨v, k⟩
  by_cases hz : v = 0
  · subst hz
    have hzall : ∀ x ∈ c, x = 0 := scanFrom_zero_all c 0 (0, 0) (by rw [hp])
    have hspec : flipColSpec c = c := by
      unfold flipColSpec
      rw [hp]
      dsimp only
      rw [getD_zero_of_all_zero hzall]
      simp
    have hg : scanFrom c pre.length (0, 0) = ((0 : ℚ), (0 : ℕ)) := by
      rw [scanFrom_localize, hp]
      simp
    rw [hspec, hg]
    dsimp only
    by_cases hd : (pre ++ (c ++ suf)).getD 0 0 < 0
    · rw [if_pos hd, htake, hdrop, map_neg_of_zero hzall]
      simp [List.append_assoc]
    · rw [if_neg hd]
  · have hfst : (scanFrom c 0 (0, 0)).1 ≠ 0 := by rw [hp]; exact hz
    have hk : k < c.length := by
      have h1 := scanFrom_idx_lt hfst
      rwa [hp] at h1
    have hg : scanFrom c pre.length (0, 0) = (v, pre.length + k) := by
      rw [scanFrom_localize, hp]
      simp [hz]
    rw [hg]
    dsimp only
    have hgd : (pre ++ (c ++ suf)).getD (pre.length + k) 0 = c.getD k 0 := by
      rw [getD_append_len, getD_append_lt c suf k hk]
    rw [hgd]
    unfold flipColSpec
    rw [hp]
    dsimp only
    by_cases hd : c.getD k 0 < 0
    · rw [if_pos hd, if_pos hd, htake, hdrop]
      simp [List.append_assoc]
    · rw [if_neg hd, if_neg hd]

theorem colSeg_length {a : List ℚ} {m N : ℕ} (ha : a.length = m * N) {j : ℕ}
    (hj : j < N) : (colSeg a m j).length = m := by
  simp only [colSeg, List.length_take, List.length_drop, ha]
  have h2 : m + j * m ≤ m * N := by
    have h3 : (j + 1) * m ≤ N * m := Nat.mul_le_mul_right m (by omega)
    calc m + j * m = (j + 1) * m := by ring
    _ ≤ N * m := h3
    _ = m * N := Nat.mul_comm N m
  omega

theorem length_flatten_spec (a : List ℚ) (m N : ℕ) (ha : a.length = m * N) :
    ∀ n, n ≤ N →
      (((List.range n).map (fun j => flipColSpec (colSeg a m j))).flatten).length
        = n * m := by
  intro n
  induction n with
  | zero => intro _; simp
  | succ n ih =>
    intro hn
    rw [List.range_succ, List.map_append, List.flatten_append]
    simp only [List.map_cons, List.map_nil, List.flatten_cons, List.flatten_nil,
      List.append_nil]
    rw [List.length_append, ih (by omega), flipColSpec_length,
      colSeg_length ha (by omega)]
    ring

/-- The `signFlip` fold processes the first `n` columns independently,
leaving the tail of the buffer untouched. -/
theorem signFlip_foldl_spec (a : List ℚ) (m N : ℕ) (ha : a.length = m * N) :
    ∀ n, n ≤ N →
      (List.range n).foldl (fun b idx => flipCol b (idx * m) m) a
        = ((List.range n).map (fun j => flipColSpec (colSeg a m j))).flatten
            ++ a.drop (n * m) := by
  intro n
  induction n with
  | zero => intro _; simp
  | succ n ih =>
    intro hn
    rw [List.range_succ, List.foldl_append, ih (by omega)]
    simp only [List.foldl_cons, List.foldl_nil]
    have hsplit : a.drop (n * m) = colSeg a m n ++ a.drop ((n + 1) * m) := by
      have h1 : (a.drop (n * m)).drop m = a.drop ((n + 1) * m) := by
        rw [List.drop_drop]
        congr 1
        ring
      rw [← h1]
      exact (List.take_append_drop m (a.drop (n * m))).symm
    have hP : (((List.range n).map
        (fun j => flipColSpec (colSeg a m j))).flatten).length = n * m :=
      length_flatten_spec a m N ha n (by omega)
    rw [hsplit,
      show n * m = (((List.range n).map
        (fun j => flipColSpec (colSeg a m j))).flatten).length from hP.symm,
      flipCol_append _ _ _ m (colSeg_length ha (by omega)),
      List.map_append, List.flatten_append]
    simp [List.append_assoc]

theorem signFlip_eq_spec (a : List ℚ) (m n : ℕ) (ha : a.length = m * n) :
    signFlip a m n = signFlipSpec a m n := by
  unfold signFlip signFlipSpec
  rw [signFlip_foldl_spec a m n ha n le_rfl,
    List.drop_eq_nil_of_le (le_of_eq (by rw [ha, Nat.mul_comm])),
    List.append_nil]

theorem signFlip_length (a : List ℚ) (m n : ℕ) (ha : a.length = m * n) :
    (signFlip a m n).length = m * n := by
  rw [signFlip_eq_spec a m n ha]
  unfold signFlipSpec
  rw [length_flatten_spec a m n ha n le_rfl, Nat.mul_comm]

theorem getD_map_range_list (g : ℕ → List ℚ) (n i : ℕ) (h : i < n) :
    ((List.range n).map g).getD i [] = g i := by
  rw [List.getD_eq_getD_get?, List.get?_map, List.get?_range h]
  rfl

theorem colSeg_flatten : ∀ (L : List (List ℚ)) (m : ℕ),
    (∀ c ∈ L, c.length = m) → ∀ j, j < L.length →
      colSeg L.flatten m j = L.getD j [] := by
  intro L
  induction L with
  | nil => intro m _ j hj; simp at hj
  | cons c L ih =>
    intro m hlen j hj
    have hc : c.length = m := hlen c (by simp)
    cases j with
    | zero =>
      simp only [colSeg, Nat.zero_mul, List.drop_zero, List.flatten_cons]
      rw [← hc, List.take_left]
      rfl
    | succ j =>
      have hdrop : (List.flatten (c :: L)).drop ((j + 1) * m)
          = L.flatten.drop (j * m) := by
        rw [List.flatten_cons,
          show (j + 1) * m = c.length + j * m from by rw [hc]; ring,
          ← List.drop_drop, List.drop_left]
      simp only [colSeg, hdrop, List.getD_cons_succ]
      exact ih m (fun d hd => hlen d (by simp [hd])) j (by simpa using hj)

/-- Extracting column `j` of `signFlip`'s result gives the per-column
specification applied to column `j` of the input. -/
theorem signFlip_colSeg (a : List ℚ) (m n : ℕ) (ha : a.length = m * n)
    (j : ℕ) (hj : j < n) :
    colSeg (signFlip a m n) m j = flipColSpec (colSeg a m j) := by
  rw [signFlip_eq_spec a m n ha]
  unfold signFlipSpec
  have hall : ∀ c ∈ (List.range n).map (fun j => flipColSpec (colSeg a m j)),
      c.length = m := by
    intro c hcmem
    obtain ⟨j', hj', rfl⟩ := List.mem_map.mp hcmem
    rw [flipColSpec_length]
    exact colSeg_length ha (List.mem_range.mp hj')
  rw [colSeg_flatten _ m hall j (by simpa using hj),
    getD_map_range_list _ _ _ hj]

theorem flipColSpec_idem (c : List ℚ) :
    flipColSpec (flipColSpec c) = flipColSpec c := by
  by_cases hd : c.getD (scanFrom c 0 (0, 0)).2 0 < 0
  · have h1 : flipColSpec c = c.map (fun x => -x) := by
      unfold flipColSpec
      rw [if_pos hd]
    rw [h1]
    unfold flipColSpec
    rw [scanFrom_map_neg, getD_map_negQ, if_neg (by linarith)]
  · have h1 : flipColSpec c = c := by
      unfold flipColSpec
      rw [if_neg hd]
    rw [h1, h1]

theorem maxAbsElem_max (c : List ℚ) : ∀ x ∈ c, absQ x ≤ absQ (maxAbsElem c) := by
  intro x hx
  unfold maxAbsElem
  rw [← scanFrom_val c]
  exact scanFrom_ge c 0 (0, 0) x hx

theorem maxAbsElem_flip_nonneg (c : List ℚ) : 0 ≤ maxAbsElem (flipColSpec c) := by
  unfold maxAbsElem
  by_cases hd : c.getD (scanFrom c 0 (0, 0)).2 0 < 0
  · have h1 : flipColSpec c = c.map (fun x => -x) := by
      unfold flipColSpec
      rw [if_pos hd]
    rw [h1, scanFrom_map_neg, getD_map_negQ]
    linarith
  · have h1 : flipColSpec c = c := by
      unfold flipColSpec
      rw [if_neg hd]
    rw [h1]
    exact not_lt.mp hd

/-! ## Claims about `signFlip` -/

/-- C2: `signFlip` treats each column of a column-major matrix
independently: column `j` of the result is the per-column rule (select the
earliest element of maximum absolute value by a strict `>` running-max
scan; negate the whole column exactly when that element's original signed
value is negative) applied to column `j` of the input, and the selected
element's absolute value dominates the column; in particular the 3×2
scenario with columns `[1, -5, 3]` and `[2, 1, -1/2]` yields
`[-1, 5, -3]` and `[2, 1, -1/2]`. -/
theorem signFlip_per_column :
    (∀ (m n : ℕ) (a : List ℚ), 0 < m → 0 < n → a.length = m * n →
      ∀ j, j < n →
        colSeg (signFlip a m n) m j = flipColSpec (colSeg a m j)
        ∧ ∀ x ∈ colSeg a m j, absQ x ≤ absQ (maxAbsElem (colSeg a m j)))
    ∧ signFlip [1, -5, 3, 2, 1, -(1/2)] 3 2 = [-1, 5, -3, 2, 1, -(1/2)] := by
  constructor
  · intro m n a _hm _hn ha j hj
    exact ⟨signFlip_colSeg a m n ha j hj, maxAbsElem_max _⟩
  · norm_num [signFlip, flipCol, scanFrom, absQ, List.range_succ]

/-- Witness for C2 at the 3×2 scenario matrix, column 0. -/
theorem signFlip_per_column_witness :
    colSeg (signFlip [1, -5, 3, 2, 1, -(1/2)] 3 2) 3 0
      = flipColSpec (colSeg [1, -5, 3, 2, 1, -(1/2)] 3 0)
    ∧ ∀ x ∈ colSeg [1, -5, 3, 2, 1, -(1/2)] 3 0,
        absQ x ≤ absQ (maxAbsElem (colSeg [1, -5, 3, 2, 1, -(1/2)] 3 0)) :=
  signFlip_per_column.1 3 2 [1, -5, 3, 2, 1, -(1/2)] (by norm_num) (by norm_num)
    (by norm_num) 0 (by norm_num)

/-- C4: after one `signFlip`, every column's selected maximal-absolute-value
element is non-negative (and it dominates the column in absolute value),
and a second `signFlip` changes no element. -/
theorem signFlip_idem :
    ∀ (m n : ℕ) (a : List ℚ), 0 < m → 0 < n → a.length = m * n →
      (∀ j, j < n →
        0 ≤ maxAbsElem (colSeg (signFlip a m n) m j)
        ∧ ∀ x ∈ colSeg (signFlip a m n) m j,
            absQ x ≤ absQ (maxAbsElem (colSeg (signFlip a m n) m j)))
      ∧ signFlip (signFlip a m n) m n = signFlip a m n := by
  intro m n a _hm _hn ha
  constructor
  · intro j hj
    rw [signFlip_colSeg a m n ha j hj]
    exact ⟨maxAbsElem_flip_nonneg _, fun x hx => maxAbsElem_max _ x hx⟩
  · have hlen : (signFlip a m n).length = m * n := signFlip_length a m n ha
    rw [signFlip_eq_spec (signFlip a m n) m n hlen]
    unfold signFlipSpec
    have hcong : ∀ j ∈ List.range n,
        flipColSpec (colSeg (signFlip a m n) m j) = flipColSpec (colSeg a m j) := by
      intro j hj
      rw [signFlip_colSeg a m n ha j (List.mem_range.mp hj), flipColSpec_idem]
    rw [List.map_congr_left hcong]
    exact (signFlip_eq_spec a m n ha).symm

/-- Witness for C4 at the 3×2 scenario matrix (the idempotence part). -/
theorem signFlip_idem_witness :
    signFlip (signFlip [1, -5, 3, 2, 1, -(1/2)] 3 2) 3 2
      = signFlip [1, -5, 3, 2, 1, -(1/2)] 3 2 :=
  (signFlip_idem 3 2 [1, -5, 3, 2, 1, -(1/2)] (by norm_num) (by norm_num)
    (by norm_num)).2

/-- C10: for an all-zero column the scan never updates the `(0.0, 0)`
accumulator, so `max_index` stays at the absolute buffer index `0` — an
index into the first column — and the flip decision reads the sign of the
matrix's element 0: the column is negated (its zeros replaced by negated
zeros, which leaves the segment's values unchanged) exactly when that
first element is negative. -/
theorem flipCol_zero_column :
    ∀ (b : List ℚ) (d m : ℕ), (∀ x ∈ (b.drop d).take m, x = 0) →
      scanFrom ((b.drop d).take m) d (0, 0) = (0, 0)
      ∧ (b.getD 0 0 < 0 →
          flipCol b d m
            = b.take d ++ ((b.drop d).take m).map (fun x => -x) ++ b.drop (d + m)
          ∧ ((b.drop d).take m).map (fun x => -x) = (b.drop d).take m)
      ∧ (¬ b.getD 0 0 < 0 → flipCol b d m = b) := by
  intro b d m hz
  have hscan : scanFrom ((b.drop d).take m) d (0, 0) = (0, 0) :=
    scanFrom_const_init ((b.drop d).take m) d 0 hz
  refine ⟨hscan, ?_, ?_⟩
  · intro hneg
    refine ⟨?_, map_neg_of_zero hz⟩
    simp only [flipCol, hscan]
    rw [if_pos hneg]
  · intro hpos
    simp only [flipCol, hscan]
    rw [if_neg hpos]

/-- Witness for C10 at `b = [-1, 4, 0, 0]` (2×2 column-major, second column
all zero, first matrix element negative), `d = 2`, `m = 2`. -/
theorem flipCol_zero_column_witness :
    flipCol [-1, 4, 0, 0] 2 2
      = ([-1, 4, 0, 0] : List ℚ).take 2
          ++ ((([-1, 4, 0, 0] : List ℚ).drop 2).take 2).map (fun x => -x)
          ++ ([-1, 4, 0, 0] : List ℚ).drop (2 + 2) :=
  ((flipCol_zero_column [-1, 4, 0, 0] 2 2 (by norm_num)).2.1 (by norm_num)).1

end Matrix
end MLCommon
